import Mathlib

/-!
# Verification of `packages/jest-diff/src/diffLines.ts`

Shallow embedding of the line-diff rendering module.  A text and each of
its lines are modelled as `List Char` (`Line`); JavaScript strings are
immutable char sequences, so this is a direct translation.  Terminal
decoration functions (chalk) wrap a string in constant opening/closing
escape codes, so a background decoration is modelled as a pair of
constant lists (`Decor`); a plain foreground color is an arbitrary
function on lines.  External collaborators of the module — the
`diff-sequences` oracle, `printAnnotation`, `createPatchMark` and the
no-diff sentinel from `./constants` — are parameters (`Externals`, and
an `Oracle` argument of the entry point); the oracle's output is a list
of common runs fed, in order, to the callback that the source installs.

Machine integers: all indices and counts are small array indices that
JavaScript represents exactly, so they are modelled as `Nat`; where the
source can produce a negative intermediate (`String.prototype.slice`
with a negative end) the JS clamping semantics is modelled explicitly
(`jsSliceTo`).
-/

namespace JestDiff

/-- A line (or a whole text) as a sequence of characters. -/
abbrev Line := List Char

/-- Whitespace predicate modelling the JavaScript regex class `\s`
(restricted to the ASCII whitespace characters; the claims under
verification only quantify over whitespace generically, so the exact
Unicode extent of `\s` is immaterial). -/
def isWS (c : Char) : Bool :=
  c == ' ' || c == '\t' || c == '\n' || c == '\r' ||
  c == Char.ofNat 11 || c == Char.ofNat 12

/-- A chalk background decoration: constant opening and closing escape
codes wrapped around the decorated text.  (Chalk's `bgYellow`/`inverse`
are of this shape; their codes contain no `$` replacement patterns, so
a `String.prototype.replace` whose replacement is `bgColor('$&')`
behaves as plain wrapping of the match.) -/
structure Decor where
  pre : Line
  post : Line

/-- Apply a background decoration to a piece of text. -/
def Decor.apply (d : Decor) (s : Line) : Line := d.pre ++ s ++ d.post

/-- `highlightTrailingSpaces` (diffLines.ts:24-25):
`line.replace(/\s+$/, bgColor('$&'))`.  The regex `/\s+$/` matches the
maximal non-empty trailing whitespace run (and nothing when there is no
trailing whitespace), and the replacement wraps the match in the
decoration. -/
def highlightTrailingSpaces (line : Line) (bgColor : Decor) : Line :=
  let t := (line.reverse.takeWhile isWS).length
  if t = 0 then line
  else line.take (line.length - t) ++ bgColor.apply (line.drop (line.length - t))

/-- The second `replace` of `highlightLeadingTrailingSpaces`
(diffLines.ts:30-34): `s.replace(/^(\s\s)*(\s)(?=[^\s])/, '$1' + bgColor('$2'))`.
Let `k` be the length of the maximal leading whitespace run of `s`.
Anchored at the start, `(\s\s)*` consumes whitespace pairs greedily and
backtracks; the single `(\s)` plus the lookahead `(?=[^\s])` succeed
exactly when `k` is odd and a character follows the run (the character
at index `k` is non-whitespace by maximality).  The match is then the
first `k` characters of `s`.  An ECMAScript capture group under a
quantifier retains only its *last* iteration, so `$1` is the final
whitespace pair of the run — the characters at indices `k-3` and `k-2`
— and is empty when `k = 1`; `$2` is the character at index `k-1`.
The whole `k`-character match is therefore replaced by at most one
pair plus the wrapped last character: for `k ≥ 5` the earlier pairs
are deleted from the output. -/
def replaceLeadingOdd (s : Line) (bgColor : Decor) : Line :=
  let k := (s.takeWhile isWS).length
  if k % 2 = 1 ∧ k < s.length then
    (if k = 1 then [] else (s.drop (k - 3)).take 2) ++
      bgColor.apply ((s.drop (k - 1)).take 1) ++ s.drop k
  else s

/-- `highlightLeadingTrailingSpaces` (diffLines.ts:28-34): the trailing
replacement followed by the leading replacement applied to its result. -/
def highlightLeadingTrailingSpaces (line : Line) (bgColor : Decor) : Line :=
  replaceLeadingOdd (highlightTrailingSpaces line bgColor) bgColor

/-- `getHighlightSpaces` (diffLines.ts:38-39). -/
def getHighlightSpaces (bothEdges : Bool) : Line → Decor → Line :=
  if bothEdges then highlightLeadingTrailingSpaces else highlightTrailingSpaces

/-- The fields of `DiffOptionsNormalized` (types.ts) read by this
module.  The per-side colors are arbitrary decoration functions. -/
structure DiffOptionsNormalized where
  aColor : Line → Line
  bColor : Line → Line
  commonColor : Line → Line
  aIndicator : Line
  bIndicator : Line
  commonIndicator : Line
  contextLines : Nat
  expand : Bool

/-- `ChangeCounts` (printDiffs.ts): running totals of deleted (`a`) and
inserted (`b`) lines. -/
structure ChangeCounts where
  a : Nat
  b : Nat

/-- External collaborators imported by diffLines.ts: the module-level
chalk constants (diffLines.ts:19-21), the summary-header printer and
patch-mark builder from `./printDiffs`, and `NO_DIFF_MESSAGE` from
`./constants`.  `printSummary` models `printAnnotation`. -/
structure Externals where
  fgIndent : Line → Line
  bgCommon : Decor
  bgInverse : Decor
  printSummary : DiffOptionsNormalized → ChangeCounts → Line
  createPatchMark : Nat → Nat → Nat → Nat → DiffOptionsNormalized → Line

/-- JavaScript `s.slice(0, e)` for a possibly negative `e`: a negative
end counts from the end of the string and is clamped at 0. -/
def jsSliceTo (s : Line) (e : Int) : Line :=
  let len : Int := s.length
  let e2 := if e < 0 then max (len + e) 0 else min e len
  s.take e2.toNat

/-- `formatDelete` (diffLines.ts:44-64).  The loop runs `aIndex` from
`aStart` while `aIndex !== aEnd` (call sites guarantee `aStart ≤ aEnd`).
`aSame` models the reference comparison `aLinesUn !== aLinesIn` of the
source (`aSame = true` iff the two arrays are the same object): the
source selects both-edges highlighting exactly when the references
differ. -/
def formatDelete (aStart aEnd : Nat) (aLinesUn aLinesIn : List Line) (aSame : Bool)
    (o : DiffOptionsNormalized) (ext : Externals) : List Line :=
  (List.range (aEnd - aStart)).map fun i =>
    let aIndex := aStart + i
    let aLineUn := aLinesUn.getD aIndex []
    let aLineIn := aLinesIn.getD aIndex []
    let indentation := jsSliceTo aLineIn ((aLineIn.length : Int) - (aLineUn.length : Int))
    o.aColor (o.aIndicator ++ [' '] ++ indentation ++
      getHighlightSpaces (!aSame) aLineUn ext.bgInverse)

/-- `formatInsert` (diffLines.ts:67-87), symmetric to `formatDelete`. -/
def formatInsert (bStart bEnd : Nat) (bLinesUn bLinesIn : List Line) (bSame : Bool)
    (o : DiffOptionsNormalized) (ext : Externals) : List Line :=
  (List.range (bEnd - bStart)).map fun i =>
    let bIndex := bStart + i
    let bLineUn := bLinesUn.getD bIndex []
    let bLineIn := bLinesIn.getD bIndex []
    let indentation := jsSliceTo bLineIn ((bLineIn.length : Int) - (bLineUn.length : Int))
    o.bColor (o.bIndicator ++ [' '] ++ indentation ++
      getHighlightSpaces (!bSame) bLineUn ext.bgInverse)

/-- `formatCommon` (diffLines.ts:91-118).  The loop counts `nCommon`
down while advancing `aCommon`/`bCommon`; `bSame` models the reference
comparison `bLinesUn !== bLinesIn` as in `formatDelete`. -/
def formatCommon (nCommon aCommon bCommon : Nat)
    (aLinesIn bLinesUn bLinesIn : List Line) (bSame : Bool)
    (o : DiffOptionsNormalized) (ext : Externals) : List Line :=
  (List.range nCommon).map fun i =>
    let bLineUn := bLinesUn.getD (bCommon + i) []
    let bLineIn := bLinesIn.getD (bCommon + i) []
    let bLineInLength := bLineIn.length
    let indentation := jsSliceTo bLineIn ((bLineInLength : Int) - (bLineUn.length : Int))
    let hasSameIndentation := (aLinesIn.getD (aCommon + i) []).length = bLineInLength
    let fg := if hasSameIndentation then o.commonColor else ext.fgIndent
    let bg := if hasSameIndentation then ext.bgCommon else ext.bgInverse
    fg (o.commonIndicator ++ [' '] ++ indentation ++
      getHighlightSpaces (!bSame) bLineUn bg)

/-- One common run reported by the `diff-sequences` oracle: the
arguments `(nCommon, aCommon, bCommon)` of one `foundSubsequence`
callback invocation (named `aStartCommon`/`bStartCommon` in
`diffNoExpand`). -/
structure CommonRun where
  nCommon : Nat
  aCommon : Nat
  bCommon : Nat

/-- The body of `diffExpand` (diffLines.ts:122-180): the
`foundSubsequence` callback applied to each run in oracle order,
followed by the final flush of the unmatched tails.  The mutable
closure state (`aStart`, `bStart`, the change counts and the output
array) is threaded explicitly; the returned triple is the output lines
and the two change counts. -/
def diffExpandLoop (aLinesUn bLinesUn aLinesIn bLinesIn : List Line) (aSame bSame : Bool)
    (o : DiffOptionsNormalized) (ext : Externals) (aLength bLength : Nat) :
    Nat → Nat → Nat → Nat → List CommonRun → List Line × Nat × Nat
  | aStart, bStart, ca, cb, [] =>
      (formatDelete aStart aLength aLinesUn aLinesIn aSame o ext ++
        formatInsert bStart bLength bLinesUn bLinesIn bSame o ext,
       ca + (aLength - aStart), cb + (bLength - bStart))
  | aStart, bStart, ca, cb, r :: rs =>
      let out :=
        formatDelete aStart r.aCommon aLinesUn aLinesIn aSame o ext ++
        formatInsert bStart r.bCommon bLinesUn bLinesIn bSame o ext ++
        formatCommon r.nCommon r.aCommon r.bCommon aLinesIn bLinesUn bLinesIn bSame o ext
      let rest := diffExpandLoop aLinesUn bLinesUn aLinesIn bLinesIn aSame bSame o ext
        aLength bLength (r.aCommon + r.nCommon) (r.bCommon + r.nCommon)
        (ca + (r.aCommon - aStart)) (cb + (r.bCommon - bStart)) rs
      (out ++ rest.1, rest.2)

/-- `diffExpand` (diffLines.ts:122-180): the annotation header followed
by all emitted lines joined with newlines. -/
def diffExpand (aLinesUn bLinesUn aLinesIn bLinesIn : List Line) (aSame bSame : Bool)
    (o : DiffOptionsNormalized) (ext : Externals) (runs : List CommonRun) : Line :=
  let res := diffExpandLoop aLinesUn bLinesUn aLinesIn bLinesIn aSame bSame o ext
    aLinesUn.length bLinesUn.length 0 0 0 0 runs
  ext.printSummary o ⟨res.2.1, res.2.2⟩ ++ List.intercalate ['\n'] res.1

/-- The mutable state of `diffNoExpand` (diffLines.ts:196-217):
placeholder index, output array, the `isAtEnd` flag, the change counts
(`ca`/`cb` model `changeCounts.a`/`.b`) and the current patch window
boundaries. -/
structure NXState where
  iPatchMark : Nat
  array : List Line
  isAtEnd : Bool
  ca : Nat
  cb : Nat
  aStart : Nat
  aEnd : Nat
  bStart : Nat
  bEnd : Nat

/-- The `foundSubsequence` callback of `diffNoExpand`
(diffLines.ts:221-318) as a state transition.  JavaScript array
assignment `array[iPatchMark] = mark` with `iPatchMark < array.length`
is `List.set`; the assignment at the fresh index `array.length`
(diffLines.ts:298-299) appends the placeholder. -/
def noExpandStep (aLinesUn bLinesUn aLinesIn bLinesIn : List Line) (aSame bSame : Bool)
    (o : DiffOptionsNormalized) (ext : Externals) (aLength bLength : Nat)
    (s : NXState) (r : CommonRun) : NXState :=
  let aStartCommon := r.aCommon
  let bStartCommon := r.bCommon
  let nCommon := r.nCommon
  let aEndCommon := aStartCommon + nCommon
  let bEndCommon := bStartCommon + nCommon
  let isAtEnd := decide (aEndCommon = aLength ∧ bEndCommon = bLength)
  if aStartCommon = 0 ∧ bStartCommon = 0 then
    let nLines := if o.contextLines < nCommon then o.contextLines else nCommon
    let aStart := aEndCommon - nLines
    let bStart := bEndCommon - nLines
    { s with
      isAtEnd := isAtEnd
      aStart := aStart
      bStart := bStart
      array := s.array ++
        formatCommon nLines aStart bStart aLinesIn bLinesUn bLinesIn bSame o ext
      aEnd := aEndCommon
      bEnd := bEndCommon }
  else
    let ca := s.ca + (aStartCommon - s.aEnd)
    let cb := s.cb + (bStartCommon - s.bEnd)
    let array1 := s.array ++
      formatDelete s.aEnd aStartCommon aLinesUn aLinesIn aSame o ext ++
      formatInsert s.bEnd bStartCommon bLinesUn bLinesIn bSame o ext
    let aEnd1 := aStartCommon
    let bEnd1 := bStartCommon
    let maxContextLines := if isAtEnd then o.contextLines else o.contextLines + o.contextLines
    if nCommon ≤ maxContextLines then
      { iPatchMark := s.iPatchMark
        isAtEnd := isAtEnd
        ca := ca
        cb := cb
        aStart := s.aStart
        bStart := s.bStart
        array := array1 ++
          formatCommon nCommon aEnd1 bEnd1 aLinesIn bLinesUn bLinesIn bSame o ext
        aEnd := aEnd1 + nCommon
        bEnd := bEnd1 + nCommon }
    else
      let array2 := array1 ++
        formatCommon o.contextLines aEnd1 bEnd1 aLinesIn bLinesUn bLinesIn bSame o ext
      let aEnd2 := aEnd1 + o.contextLines
      let bEnd2 := bEnd1 + o.contextLines
      let array3 := array2.set s.iPatchMark (ext.createPatchMark s.aStart aEnd2 s.bStart bEnd2 o)
      if isAtEnd then
        { iPatchMark := s.iPatchMark
          isAtEnd := isAtEnd
          ca := ca
          cb := cb
          aStart := s.aStart
          bStart := s.bStart
          array := array3
          aEnd := aEnd2
          bEnd := bEnd2 }
      else
        let iPatchMark := array3.length
        let array4 := array3 ++ [[]]
        let nLines := if o.contextLines < nCommon then o.contextLines else nCommon
        let aStart := aEndCommon - nLines
        let bStart := bEndCommon - nLines
        { iPatchMark := iPatchMark
          isAtEnd := isAtEnd
          ca := ca
          cb := cb
          aStart := aStart
          bStart := bStart
          array := array4 ++
            formatCommon nLines aStart bStart aLinesIn bLinesUn bLinesIn bSame o ext
          aEnd := aEndCommon
          bEnd := bEndCommon }

/-- The oracle's drive of `foundSubsequence` over all discovered runs,
in order. -/
def diffNoExpandLoop (aLinesUn bLinesUn aLinesIn bLinesIn : List Line) (aSame bSame : Bool)
    (o : DiffOptionsNormalized) (ext : Externals) (aLength bLength : Nat) :
    NXState → List CommonRun → NXState
  | s, [] => s
  | s, r :: rs =>
      diffNoExpandLoop aLinesUn bLinesUn aLinesIn bLinesIn aSame bSame o ext aLength bLength
        (noExpandStep aLinesUn bLinesUn aLinesIn bLinesIn aSame bSame o ext aLength bLength s r) rs

/-- The state of `diffNoExpand` just before `diff` is invoked
(diffLines.ts:196-217): placeholder array `['']`, zero counts and a
zero-initialized first patch window. -/
def initialNXState : NXState :=
  { iPatchMark := 0
    array := [[]]
    isAtEnd := false
    ca := 0
    cb := 0
    aStart := 0
    aEnd := 0
    bStart := 0
    bEnd := 0 }

/-- `diffNoExpand` (diffLines.ts:186-339): run the callback over all
runs, flush the remaining change lines unless the last run reached both
ends, then either remove the placeholder line (full coverage) or
replace the current placeholder with the final patch mark, and join. -/
def diffNoExpand (aLinesUn bLinesUn aLinesIn bLinesIn : List Line) (aSame bSame : Bool)
    (o : DiffOptionsNormalized) (ext : Externals) (runs : List CommonRun) : Line :=
  let aLength := aLinesUn.length
  let bLength := bLinesUn.length
  let s1 := diffNoExpandLoop aLinesUn bLinesUn aLinesIn bLinesIn aSame bSame o ext
    aLength bLength initialNXState runs
  let s2 :=
    if s1.isAtEnd then s1
    else
      { s1 with
        ca := s1.ca + (aLength - s1.aEnd)
        cb := s1.cb + (bLength - s1.bEnd)
        array := s1.array ++
          formatDelete s1.aEnd aLength aLinesUn aLinesIn aSame o ext ++
          formatInsert s1.bEnd bLength bLinesUn bLinesIn bSame o ext
        aEnd := aLength
        bEnd := bLength }
  let finalArray :=
    if s2.aStart = 0 ∧ s2.aEnd = aLength ∧ s2.bStart = 0 ∧ s2.bEnd = bLength then
      s2.array.drop 1
    else
      s2.array.set s2.iPatchMark (ext.createPatchMark s2.aStart s2.aEnd s2.bStart s2.bEnd o)
  ext.printSummary o ⟨s2.ca, s2.cb⟩ ++ List.intercalate ['\n'] finalArray

/-- The optional `original` argument of the entry point
(diffLines.ts:14-17): indentation-preserving versions of the two
texts. -/
structure Original where
  a : Line
  b : Line

/-- JavaScript `text.split('\n')` on a character sequence. -/
def splitLines : Line → List Line
  | [] => [[]]
  | c :: cs =>
      if c = '\n' then [] :: splitLines cs
      else
        match splitLines cs with
        | [] => [[c]]
        | l :: ls => (c :: l) :: ls

/-- The `diff-sequences` oracle (external collaborator): from the two
lengths and the equality predicate it produces the ordered list of
common runs handed to `foundSubsequence`. -/
abbrev Oracle := Nat → Nat → (Nat → Nat → Bool) → List CommonRun

/-- The no-diff sentinel `NO_DIFF_MESSAGE` from `./constants` is a fixed
string; it is passed alongside the oracle as a parameter of the entry
point model. -/
def diffLines (a b : Line) (o : DiffOptionsNormalized) (original : Option Original)
    (ext : Externals) (noDiffMessage : Line) (oracle : Oracle) : Line :=
  if a = b then noDiffMessage
  else
    let aLinesUn0 := splitLines a
    let bLinesUn0 := splitLines b
    match original with
    | none =>
        let runs := oracle aLinesUn0.length bLinesUn0.length
          (fun i j => aLinesUn0.getD i [] == bLinesUn0.getD j [])
        if o.expand then
          diffExpand aLinesUn0 bLinesUn0 aLinesUn0 bLinesUn0 true true o ext runs
        else
          diffNoExpand aLinesUn0 bLinesUn0 aLinesUn0 bLinesUn0 true true o ext runs
    | some orig =>
        let aLinesIn := splitLines orig.a
        let bLinesIn := splitLines orig.b
        let fallback : Bool :=
          aLinesUn0.length != aLinesIn.length || bLinesUn0.length != bLinesIn.length
        let aLinesUn := if fallback then aLinesIn else aLinesUn0
        let bLinesUn := if fallback then bLinesIn else bLinesUn0
        -- After the fallback assignment the unnormalized and
        -- indentation-preserving arrays are the same object again, so
        -- the reference comparison `aLinesUn !== aLinesIn` is false
        -- exactly when the fallback fired.
        let same := fallback
        let runs := oracle aLinesUn.length bLinesUn.length
          (fun i j => aLinesUn.getD i [] == bLinesUn.getD j [])
        if o.expand then
          diffExpand aLinesUn bLinesUn aLinesIn bLinesIn same same o ext runs
        else
          diffNoExpand aLinesUn bLinesUn aLinesIn bLinesIn same same o ext runs

/-- Concrete options used to instantiate theorems on executable inputs. -/
def sampleOpts : DiffOptionsNormalized where
  aColor := fun s => '-' :: s
  bColor := fun s => '+' :: s
  commonColor := fun s => '=' :: s
  aIndicator := ['-']
  bIndicator := ['+']
  commonIndicator := [' ']
  contextLines := 1
  expand := false

/-- Concrete external collaborators used to instantiate theorems on
executable inputs. -/
def sampleExt : Externals where
  fgIndent := fun s => 'i' :: s
  bgCommon := ⟨['('], [')']⟩
  bgInverse := ⟨['<'], ['>']⟩
  printSummary := fun _ c => 'S' :: (List.replicate c.a 'a' ++ List.replicate c.b 'b')
  createPatchMark := fun a1 a2 b1 b2 _ =>
    '@' :: (List.replicate a1 'p' ++ List.replicate a2 'q' ++
      List.replicate b1 'r' ++ List.replicate b2 's')

/-- The output shape claim C6 predicts for a line that contains a
non-whitespace character (`k` = leading whitespace count, `t` =
trailing whitespace count): the trailing run is wrapped whenever
non-empty, and of the leading run exactly the last character is
wrapped when `k` is odd — with the pairs before it *left in place* —
and none when `k` is even.  The program refutes this shape for odd
`k ≥ 5` (see `replaceLeadingOdd`: the earlier pairs are deleted). -/
def hltsClaimed (line : Line) (bg : Decor) : Line :=
  let k := (line.takeWhile isWS).length
  let t := (line.reverse.takeWhile isWS).length
  (if k % 2 = 1 then line.take (k - 1) ++ bg.apply ((line.drop (k - 1)).take 1)
   else line.take k) ++
  (line.drop k).take (line.length - t - k) ++
  (if t = 0 then [] else bg.apply (line.drop (line.length - t)))

/-- The output shape the program actually produces for a line that
contains a non-whitespace character (`k` = leading whitespace count,
`t` = trailing whitespace count): the trailing run is wrapped whenever
non-empty; for odd `k` the whole leading run is replaced by its last
whitespace pair (empty when `k = 1`) followed by the wrapped last
leading whitespace character — earlier pairs are dropped — and for
even `k` the leading run is untouched. -/
def hltsAmended (line : Line) (bg : Decor) : Line :=
  let k := (line.takeWhile isWS).length
  let t := (line.reverse.takeWhile isWS).length
  (if k % 2 = 1 then
    (if k = 1 then [] else (line.drop (k - 3)).take 2) ++
      bg.apply ((line.drop (k - 1)).take 1)
   else line.take k) ++
  (line.drop k).take (line.length - t - k) ++
  (if t = 0 then [] else bg.apply (line.drop (line.length - t)))

/-- The contract of the `diff-sequences` oracle on one side: the runs
are handed out in strictly left-to-right, non-overlapping order within
`[0, len)`.  `f` projects a run's start index on the given side;
`start` is the end of what has already been consumed. -/
def validSide (len : Nat) (f : CommonRun → Nat) : Nat → List CommonRun → Bool
  | start, [] => decide (start ≤ len)
  | start, r :: rs => decide (start ≤ f r) && validSide len f (f r + r.nCommon) rs

/-- The oracle contract on both sides at once. -/
def validRuns (lenA lenB aEnd bEnd : Nat) (runs : List CommonRun) : Bool :=
  validSide lenA (fun r => r.aCommon) aEnd runs &&
  validSide lenB (fun r => r.bCommon) bEnd runs

/-- The indices of one side consumed by `diffExpandLoop`, in emission
order, starting from consumed position `start`: for each run first the
flushed change interval `[start, f r)`, then the common interval of the
run, and after the last run the flushed tail `[start, len)`.  `f`
projects a run's start index on the side in question.  This mirrors
the index bookkeeping of `diffExpandLoop` exactly, recording indices
instead of formatted lines. -/
def consumedExpand (len : Nat) (f : CommonRun → Nat) : Nat → List CommonRun → List Nat
  | start, [] => List.range' start (len - start)
  | start, r :: rs =>
      List.range' start (f r - start) ++ List.range' (f r) r.nCommon ++
        consumedExpand len f (f r + r.nCommon) rs

/-- The indices of one side consumed by the windowed assembler
(`noExpandStep` folded by `diffNoExpandLoop`, plus the final flush of
`diffNoExpand` when the last run was not at the end), in emission
order.  `f` projects a run's start index on the side in question and
`flen` is that side's length; the branch structure mirrors
`noExpandStep`: the start-touching branch keeps the run's last
`min(c, count)` lines, the short-run branch keeps the whole run, the
truncating branch keeps the first `c` lines and (when not at the end)
the last `min(c, count)` lines. -/
def consumedNX (c lenA lenB : Nat) (f : CommonRun → Nat) (flen : Nat) :
    Bool → Nat → List CommonRun → List Nat
  | e, fEnd, [] => if e then [] else List.range' fEnd (flen - fEnd)
  | _, fEnd, r :: rs =>
      let atEnd := decide (r.aCommon + r.nCommon = lenA ∧ r.bCommon + r.nCommon = lenB)
      if r.aCommon = 0 ∧ r.bCommon = 0 then
        let nLines := min c r.nCommon
        List.range' (f r + r.nCommon - nLines) nLines ++
          consumedNX c lenA lenB f flen atEnd (f r + r.nCommon) rs
      else
        let bound := if atEnd then c else c + c
        List.range' fEnd (f r - fEnd) ++
          (if r.nCommon ≤ bound then
            List.range' (f r) r.nCommon ++
              consumedNX c lenA lenB f flen atEnd (f r + r.nCommon) rs
          else
            List.range' (f r) c ++
              (if atEnd then consumedNX c lenA lenB f flen atEnd (f r + c) rs
               else
                List.range' (f r + r.nCommon - min c r.nCommon) (min c r.nCommon) ++
                  consumedNX c lenA lenB f flen atEnd (f r + r.nCommon) rs))

/-- Total number of common lines over all runs. -/
def totalCommon (runs : List CommonRun) : Nat :=
  (runs.map (fun r => r.nCommon)).sum

theorem formatDelete_length (aStart aEnd : Nat) (aLinesUn aLinesIn : List Line)
    (aSame : Bool) (o : DiffOptionsNormalized) (ext : Externals) :
    (formatDelete aStart aEnd aLinesUn aLinesIn aSame o ext).length = aEnd - aStart := by
  simp [formatDelete]

theorem formatInsert_length (bStart bEnd : Nat) (bLinesUn bLinesIn : List Line)
    (bSame : Bool) (o : DiffOptionsNormalized) (ext : Externals) :
    (formatInsert bStart bEnd bLinesUn bLinesIn bSame o ext).length = bEnd - bStart := by
  simp [formatInsert]

theorem formatCommon_length (nCommon aCommon bCommon : Nat)
    (aLinesIn bLinesUn bLinesIn : List Line) (bSame : Bool)
    (o : DiffOptionsNormalized) (ext : Externals) :
    (formatCommon nCommon aCommon bCommon aLinesIn bLinesUn bLinesIn bSame o ext).length
      = nCommon := by
  simp [formatCommon]

theorem formatDelete_empty (aStart : Nat) (aLinesUn aLinesIn : List Line)
    (aSame : Bool) (o : DiffOptionsNormalized) (ext : Externals) :
    formatDelete aStart aStart aLinesUn aLinesIn aSame o ext = [] := by
  simp [formatDelete]

theorem formatInsert_empty (bStart : Nat) (bLinesUn bLinesIn : List Line)
    (bSame : Bool) (o : DiffOptionsNormalized) (ext : Externals) :
    formatInsert bStart bStart bLinesUn bLinesIn bSame o ext = [] := by
  simp [formatInsert]

theorem ite_lt_eq_min (c n : Nat) : (if c < n then c else n) = min c n := by
  split <;> omega

theorem if_decide {P : Prop} [Decidable P] {α : Sort _} (x y : α) :
    (if decide P then x else y) = if P then x else y := by
  by_cases h : P <;> simp [h]

/-- Branch analysis of `noExpandStep`: a common run touching the very
start re-initializes the first patch window (diffLines.ts:230-249). -/
theorem noExpandStep_eq_start (aLinesUn bLinesUn aLinesIn bLinesIn : List Line)
    (aSame bSame : Bool) (o : DiffOptionsNormalized) (ext : Externals)
    (aLength bLength : Nat) (s : NXState) (r : CommonRun)
    (h0 : r.aCommon = 0 ∧ r.bCommon = 0) :
    noExpandStep aLinesUn bLinesUn aLinesIn bLinesIn aSame bSame o ext aLength bLength s r =
      { s with
        isAtEnd := decide (r.aCommon + r.nCommon = aLength ∧ r.bCommon + r.nCommon = bLength)
        aStart := r.aCommon + r.nCommon - min o.contextLines r.nCommon
        bStart := r.bCommon + r.nCommon - min o.contextLines r.nCommon
        array := s.array ++ formatCommon (min o.contextLines r.nCommon)
          (r.aCommon + r.nCommon - min o.contextLines r.nCommon)
          (r.bCommon + r.nCommon - min o.contextLines r.nCommon)
          aLinesIn bLinesUn bLinesIn bSame o ext
        aEnd := r.aCommon + r.nCommon
        bEnd := r.bCommon + r.nCommon } := by
  simp only [noExpandStep, if_pos h0, ite_lt_eq_min]

/-- Branch analysis of `noExpandStep`: an internal or final run short
enough for its whole length to stay inside the current window
(diffLines.ts:251-278). -/
theorem noExpandStep_eq_whole (aLinesUn bLinesUn aLinesIn bLinesIn : List Line)
    (aSame bSame : Bool) (o : DiffOptionsNormalized) (ext : Externals)
    (aLength bLength : Nat) (s : NXState) (r : CommonRun)
    (hstart : ¬(r.aCommon = 0 ∧ r.bCommon = 0))
    (hle : r.nCommon ≤
      if r.aCommon + r.nCommon = aLength ∧ r.bCommon + r.nCommon = bLength
      then o.contextLines else o.contextLines + o.contextLines) :
    noExpandStep aLinesUn bLinesUn aLinesIn bLinesIn aSame bSame o ext aLength bLength s r =
      { iPatchMark := s.iPatchMark
        array := s.array ++ formatDelete s.aEnd r.aCommon aLinesUn aLinesIn aSame o ext
          ++ formatInsert s.bEnd r.bCommon bLinesUn bLinesIn bSame o ext
          ++ formatCommon r.nCommon r.aCommon r.bCommon aLinesIn bLinesUn bLinesIn bSame o ext
        isAtEnd := decide (r.aCommon + r.nCommon = aLength ∧ r.bCommon + r.nCommon = bLength)
        ca := s.ca + (r.aCommon - s.aEnd)
        cb := s.cb + (r.bCommon - s.bEnd)
        aStart := s.aStart
        aEnd := r.aCommon + r.nCommon
        bStart := s.bStart
        bEnd := r.bCommon + r.nCommon } := by
  simp only [noExpandStep, if_neg hstart, if_decide]
  rw [if_pos hle]

/-- Branch analysis of `noExpandStep`: a run longer than the applicable
context bound closes the current window (diffLines.ts:280-317). -/
theorem noExpandStep_eq_trunc (aLinesUn bLinesUn aLinesIn bLinesIn : List Line)
    (aSame bSame : Bool) (o : DiffOptionsNormalized) (ext : Externals)
    (aLength bLength : Nat) (s : NXState) (r : CommonRun)
    (hstart : ¬(r.aCommon = 0 ∧ r.bCommon = 0))
    (hgt : (if r.aCommon + r.nCommon = aLength ∧ r.bCommon + r.nCommon = bLength
            then o.contextLines else o.contextLines + o.contextLines) < r.nCommon) :
    noExpandStep aLinesUn bLinesUn aLinesIn bLinesIn aSame bSame o ext aLength bLength s r =
      (let closed :=
        (s.array ++ formatDelete s.aEnd r.aCommon aLinesUn aLinesIn aSame o ext
          ++ formatInsert s.bEnd r.bCommon bLinesUn bLinesIn bSame o ext
          ++ formatCommon o.contextLines r.aCommon r.bCommon
              aLinesIn bLinesUn bLinesIn bSame o ext).set s.iPatchMark
          (ext.createPatchMark s.aStart (r.aCommon + o.contextLines)
            s.bStart (r.bCommon + o.contextLines) o)
       if r.aCommon + r.nCommon = aLength ∧ r.bCommon + r.nCommon = bLength then
        { iPatchMark := s.iPatchMark
          array := closed
          isAtEnd := true
          ca := s.ca + (r.aCommon - s.aEnd)
          cb := s.cb + (r.bCommon - s.bEnd)
          aStart := s.aStart
          aEnd := r.aCommon + o.contextLines
          bStart := s.bStart
          bEnd := r.bCommon + o.contextLines }
       else
        { iPatchMark := closed.length
          array := closed ++ [[]] ++ formatCommon (min o.contextLines r.nCommon)
            (r.aCommon + r.nCommon - min o.contextLines r.nCommon)
            (r.bCommon + r.nCommon - min o.contextLines r.nCommon)
            aLinesIn bLinesUn bLinesIn bSame o ext
          isAtEnd := false
          ca := s.ca + (r.aCommon - s.aEnd)
          cb := s.cb + (r.bCommon - s.bEnd)
          aStart := r.aCommon + r.nCommon - min o.contextLines r.nCommon
          aEnd := r.aCommon + r.nCommon
          bStart := r.bCommon + r.nCommon - min o.contextLines r.nCommon
          bEnd := r.bCommon + r.nCommon }) := by
  simp only [noExpandStep, if_neg hstart, if_decide, ite_lt_eq_min]
  rw [if_neg (not_le.mpr hgt)]
  by_cases hE : r.aCommon + r.nCommon = aLength ∧ r.bCommon + r.nCommon = bLength
  · rw [if_pos hE, if_pos hE]
    simp [decide_eq_true hE, List.append_assoc]
  · rw [if_neg hE, if_neg hE]
    simp [decide_eq_false hE, List.append_assoc]

/-- C3: when the first common run starts at index 0 on both sides,
exactly `min(c, count)` common lines — the last `min(c, count)` lines
of the run — are emitted as the first window's leading context, and the
window's recorded start indices are set to the clipped positions (run
end minus `min(c, count)`) on both sides. -/
theorem noExpand_leading_run_clipped
    (aLinesUn bLinesUn aLinesIn bLinesIn : List Line) (aSame bSame : Bool)
    (o : DiffOptionsNormalized) (ext : Externals) (aLength bLength : Nat) (r : CommonRun)
    (h0 : r.aCommon = 0 ∧ r.bCommon = 0) :
    (let s' := noExpandStep aLinesUn bLinesUn aLinesIn bLinesIn aSame bSame o ext
      aLength bLength initialNXState r
     s'.array = [[]] ++ formatCommon (min o.contextLines r.nCommon)
        (r.nCommon - min o.contextLines r.nCommon) (r.nCommon - min o.contextLines r.nCommon)
        aLinesIn bLinesUn bLinesIn bSame o ext ∧
     (formatCommon (min o.contextLines r.nCommon)
        (r.nCommon - min o.contextLines r.nCommon) (r.nCommon - min o.contextLines r.nCommon)
        aLinesIn bLinesUn bLinesIn bSame o ext).length = min o.contextLines r.nCommon ∧
     s'.aStart = r.nCommon - min o.contextLines r.nCommon ∧
     s'.bStart = r.nCommon - min o.contextLines r.nCommon ∧
     s'.aEnd = r.nCommon ∧ s'.bEnd = r.nCommon ∧
     s'.iPatchMark = 0 ∧ s'.ca = 0 ∧ s'.cb = 0) := by
  obtain ⟨h0a, h0b⟩ := h0
  have heq := noExpandStep_eq_start aLinesUn bLinesUn aLinesIn bLinesIn aSame bSame o ext
    aLength bLength initialNXState r ⟨h0a, h0b⟩
  simp only [heq]
  simp [initialNXState, formatCommon_length, h0a, h0b]

theorem noExpand_leading_run_clipped_witness :
    (noExpandStep [] [] [] [] true true sampleOpts sampleExt 9 9 initialNXState ⟨3, 0, 0⟩).aEnd
      = 3 :=
  (noExpand_leading_run_clipped [] [] [] [] true true sampleOpts sampleExt 9 9 ⟨3, 0, 0⟩
    ⟨rfl, rfl⟩).2.2.2.2.1

/-- C2: a common run (not at the very start) whose length exceeds its
applicable bound closes the current window: exactly the first `c` lines
of the run are emitted as closing context, the window's patch-mark
placeholder is replaced by a header built from the accumulated boundary
indices, and — iff the run does not reach the end of both sequences — a
new window is opened whose leading context is the run's last
`min(c, count)` lines. -/
theorem noExpand_truncated_run_closes_window
    (aLinesUn bLinesUn aLinesIn bLinesIn : List Line) (aSame bSame : Bool)
    (o : DiffOptionsNormalized) (ext : Externals) (aLength bLength : Nat)
    (s : NXState) (r : CommonRun)
    (hstart : ¬(r.aCommon = 0 ∧ r.bCommon = 0))
    (hgt : (if r.aCommon + r.nCommon = aLength ∧ r.bCommon + r.nCommon = bLength
            then o.contextLines else o.contextLines + o.contextLines) < r.nCommon) :
    (let s' := noExpandStep aLinesUn bLinesUn aLinesIn bLinesIn aSame bSame o ext
      aLength bLength s r
     let atEnd := r.aCommon + r.nCommon = aLength ∧ r.bCommon + r.nCommon = bLength
     let closed :=
       (s.array ++ formatDelete s.aEnd r.aCommon aLinesUn aLinesIn aSame o ext
         ++ formatInsert s.bEnd r.bCommon bLinesUn bLinesIn bSame o ext
         ++ formatCommon o.contextLines r.aCommon r.bCommon
             aLinesIn bLinesUn bLinesIn bSame o ext).set s.iPatchMark
         (ext.createPatchMark s.aStart (r.aCommon + o.contextLines)
           s.bStart (r.bCommon + o.contextLines) o)
     s'.array = (if atEnd then closed
       else closed ++ [[]] ++ formatCommon (min o.contextLines r.nCommon)
         (r.aCommon + r.nCommon - min o.contextLines r.nCommon)
         (r.bCommon + r.nCommon - min o.contextLines r.nCommon)
         aLinesIn bLinesUn bLinesIn bSame o ext) ∧
     s'.iPatchMark = (if atEnd then s.iPatchMark else closed.length) ∧
     s'.aStart = (if atEnd then s.aStart
       else r.aCommon + r.nCommon - min o.contextLines r.nCommon) ∧
     s'.bStart = (if atEnd then s.bStart
       else r.bCommon + r.nCommon - min o.contextLines r.nCommon) ∧
     s'.ca = s.ca + (r.aCommon - s.aEnd) ∧
     s'.cb = s.cb + (r.bCommon - s.bEnd)) := by
  simp only [noExpandStep_eq_trunc aLinesUn bLinesUn aLinesIn bLinesIn aSame bSame o ext
    aLength bLength s r hstart hgt]
  by_cases hE : r.aCommon + r.nCommon = aLength ∧ r.bCommon + r.nCommon = bLength <;>
    simp [hE]

theorem noExpand_truncated_run_closes_window_witness :
    (noExpandStep [] [] [] [] true true sampleOpts sampleExt 10 10 initialNXState
        ⟨5, 1, 1⟩).ca
      = initialNXState.ca + (1 - initialNXState.aEnd) :=
  (noExpand_truncated_run_closes_window [] [] [] [] true true sampleOpts sampleExt 10 10
    initialNXState ⟨5, 1, 1⟩ (by decide) (by decide)).2.2.2.2.1

/-- C1: a common run that does not start at index 0 on both sides is
kept whole inside the current window — appended after the flushed
delete/insert lines, with the placeholder index and the window start
indices untouched, so no patch mark separates the surrounding changes —
if and only if its length is at most `c` when it is the final run
(reaching the end of both sequences) and at most `2c` when it is
internal. -/
theorem noExpand_common_run_kept_whole_iff
    (aLinesUn bLinesUn aLinesIn bLinesIn : List Line) (aSame bSame : Bool)
    (o : DiffOptionsNormalized) (ext : Externals) (aLength bLength : Nat)
    (s : NXState) (r : CommonRun)
    (hstart : ¬(r.aCommon = 0 ∧ r.bCommon = 0))
    (ha : s.aEnd ≤ r.aCommon) (hb : s.bEnd ≤ r.bCommon) (haw : s.aStart ≤ s.aEnd) :
    (r.nCommon ≤
      (if r.aCommon + r.nCommon = aLength ∧ r.bCommon + r.nCommon = bLength
       then o.contextLines else o.contextLines + o.contextLines)) ↔
    (let s' := noExpandStep aLinesUn bLinesUn aLinesIn bLinesIn aSame bSame o ext
      aLength bLength s r
     s'.array = s.array ++ formatDelete s.aEnd r.aCommon aLinesUn aLinesIn aSame o ext
       ++ formatInsert s.bEnd r.bCommon bLinesUn bLinesIn bSame o ext
       ++ formatCommon r.nCommon r.aCommon r.bCommon aLinesIn bLinesUn bLinesIn bSame o ext ∧
     s'.iPatchMark = s.iPatchMark ∧ s'.aStart = s.aStart ∧ s'.bStart = s.bStart) := by
  constructor
  · intro hle
    simp [noExpandStep_eq_whole aLinesUn bLinesUn aLinesIn bLinesIn aSame bSame o ext
      aLength bLength s r hstart hle, List.append_assoc]
  · intro hfull
    by_contra hgt0
    have hgt := not_le.mp hgt0
    have heq := noExpandStep_eq_trunc aLinesUn bLinesUn aLinesIn bLinesIn aSame bSame o ext
      aLength bLength s r hstart hgt
    by_cases hE : r.aCommon + r.nCommon = aLength ∧ r.bCommon + r.nCommon = bLength
    · obtain ⟨harr, -, -, -⟩ := hfull
      rw [heq] at harr
      simp only [if_pos hE] at harr
      have hlen := congrArg List.length harr
      rw [if_pos hE] at hgt
      simp [formatDelete_length, formatInsert_length, formatCommon_length] at hlen
      omega
    · obtain ⟨-, -, hA, -⟩ := hfull
      rw [heq] at hA
      rw [if_neg hE] at hgt
      simp [if_neg hE] at hA
      omega

theorem noExpand_common_run_kept_whole_iff_witness :
    (noExpandStep [] [] [] [] true true sampleOpts sampleExt 3 3 initialNXState
        ⟨1, 1, 1⟩).iPatchMark
      = initialNXState.iPatchMark :=
  ((noExpand_common_run_kept_whole_iff [] [] [] [] true true sampleOpts sampleExt 3 3
    initialNXState ⟨1, 1, 1⟩ (by decide) (by decide) (by decide) (by decide)).mp
    (by decide)).2.1

/-- C7: each common pair formatted by `formatCommon` takes its
displayed indentation prefix from the B (received) side's
indentation-preserving line, and its foreground/background decoration
pair is the common color with the same-indentation background iff the
two sides' indentation-preserving lines have equal length — otherwise
the indentation-differs foreground with the inverse background. -/
theorem formatCommon_indentation_and_colors
    (nCommon aCommon bCommon : Nat) (aLinesIn bLinesUn bLinesIn : List Line)
    (bSame : Bool) (o : DiffOptionsNormalized) (ext : Externals) (i : Nat)
    (hi : i < nCommon) :
    (formatCommon nCommon aCommon bCommon aLinesIn bLinesUn bLinesIn bSame o ext).getD i [] =
      (let bLineUn := bLinesUn.getD (bCommon + i) []
       let bLineIn := bLinesIn.getD (bCommon + i) []
       if (aLinesIn.getD (aCommon + i) []).length = bLineIn.length then
         o.commonColor (o.commonIndicator ++ [' '] ++
           jsSliceTo bLineIn ((bLineIn.length : Int) - (bLineUn.length : Int)) ++
           getHighlightSpaces (!bSame) bLineUn ext.bgCommon)
       else
         ext.fgIndent (o.commonIndicator ++ [' '] ++
           jsSliceTo bLineIn ((bLineIn.length : Int) - (bLineUn.length : Int)) ++
           getHighlightSpaces (!bSame) bLineUn ext.bgInverse)) := by
  simp only [formatCommon, List.getD_eq_getElem?_getD, List.getElem?_map,
    List.getElem?_range hi, Option.map_some', Option.getD_some]
  by_cases h : (aLinesIn[aCommon + i]?.getD ([] : Line)).length
      = (bLinesIn[bCommon + i]?.getD ([] : Line)).length <;>
    simp [h]

theorem formatCommon_indentation_and_colors_witness :
    (formatCommon 1 0 0 [['x']] [['x']] [['x']] true sampleOpts sampleExt).getD 0 [] =
      (let bLineUn := [['x']].getD (0 + 0) []
       let bLineIn := [['x']].getD (0 + 0) []
       if ([['x']].getD (0 + 0) []).length = bLineIn.length then
         sampleOpts.commonColor (sampleOpts.commonIndicator ++ [' '] ++
           jsSliceTo bLineIn ((bLineIn.length : Int) - (bLineUn.length : Int)) ++
           getHighlightSpaces (!true) bLineUn sampleExt.bgCommon)
       else
         sampleExt.fgIndent (sampleOpts.commonIndicator ++ [' '] ++
           jsSliceTo bLineIn ((bLineIn.length : Int) - (bLineUn.length : Int)) ++
           getHighlightSpaces (!true) bLineUn sampleExt.bgInverse)) :=
  formatCommon_indentation_and_colors 1 0 0 [['x']] [['x']] [['x']] true sampleOpts sampleExt 0
    (by decide)

theorem range'_concat (s m n : Nat) :
    List.range' s m ++ List.range' (s + m) n = List.range' s (m + n) := by
  have := List.range'_append s m n 1
  simpa [Nat.add_comm] using this

theorem range'_glue (s a n : Nat) (h1 : s ≤ a) :
    List.range' s (a - s) ++ List.range' a n = List.range' s (a - s + n) := by
  have := range'_concat s (a - s) n
  rwa [show s + (a - s) = a from by omega] at this

theorem validSide_le (len : Nat) (f : CommonRun → Nat) :
    ∀ (runs : List CommonRun) (start : Nat),
      validSide len f start runs = true → start ≤ len := by
  intro runs
  induction runs with
  | nil =>
      intro start h
      simpa [validSide] using h
  | cons r rs ih =>
      intro start h
      simp only [validSide, Bool.and_eq_true, decide_eq_true_eq] at h
      exact le_trans (le_trans h.1 (Nat.le_add_right _ _)) (ih _ h.2)

theorem consumedExpand_eq_range' (len : Nat) (f : CommonRun → Nat) :
    ∀ (runs : List CommonRun) (start : Nat),
      validSide len f start runs = true →
      consumedExpand len f start runs = List.range' start (len - start) := by
  intro runs
  induction runs with
  | nil =>
      intro start h
      simp [consumedExpand]
  | cons r rs ih =>
      intro start h
      simp only [validSide, Bool.and_eq_true, decide_eq_true_eq] at h
      obtain ⟨h1, h2⟩ := h
      have h3 : f r + r.nCommon ≤ len := validSide_le len f rs _ h2
      simp only [consumedExpand]
      rw [ih _ h2, range'_glue _ _ _ h1]
      have := range'_concat start (f r - start + r.nCommon) (len - (f r + r.nCommon))
      rw [show start + (f r - start + r.nCommon) = f r + r.nCommon from by omega] at this
      rw [show f r - start + r.nCommon + (len - (f r + r.nCommon)) = len - start
        from by omega] at this
      exact this

theorem consumedNX_eq_range' (c lenA lenB : Nat) (f : CommonRun → Nat) (flen : Nat)
    (hf : ∀ r : CommonRun, r.aCommon = 0 ∧ r.bCommon = 0 → f r = 0)
    (hend : ∀ r : CommonRun,
      r.aCommon + r.nCommon = lenA ∧ r.bCommon + r.nCommon = lenB →
      f r + r.nCommon = flen) :
    ∀ (runs : List CommonRun) (e : Bool) (fEnd : Nat),
      validSide flen f fEnd runs = true →
      (∀ r ∈ runs, r.nCommon ≤ c) →
      (e = true → fEnd = flen) →
      consumedNX c lenA lenB f flen e fEnd runs = List.range' fEnd (flen - fEnd) := by
  intro runs
  induction runs with
  | nil =>
      intro e fEnd hv hbig he
      cases e
      · simp [consumedNX]
      · simp [consumedNX, he rfl]
  | cons r rs ih =>
      intro e fEnd hv hbig he
      simp only [validSide, Bool.and_eq_true, decide_eq_true_eq] at hv
      obtain ⟨h1, h2⟩ := hv
      have h3 : f r + r.nCommon ≤ flen := validSide_le _ _ rs _ h2
      have hrc : r.nCommon ≤ c := hbig r (List.mem_cons_self _ _)
      have hbig2 : ∀ x ∈ rs, x.nCommon ≤ c := fun x hx => hbig x (List.mem_cons_of_mem _ hx)
      have he2 : (decide (r.aCommon + r.nCommon = lenA ∧ r.bCommon + r.nCommon = lenB)
          = true) → f r + r.nCommon = flen := by
        intro hd
        exact hend r (by simpa using hd)
      by_cases h0 : r.aCommon = 0 ∧ r.bCommon = 0
      · have hf0 : f r = 0 := hf r h0
        have hfe : fEnd = 0 := by omega
        simp only [consumedNX, if_pos h0]
        rw [ih _ _ h2 hbig2 he2]
        rw [show min c r.nCommon = r.nCommon from by omega, hf0, hfe]
        simp only [Nat.zero_add, Nat.sub_self, Nat.zero_sub]
        have := range'_concat 0 r.nCommon (flen - r.nCommon)
        simpa [show r.nCommon + (flen - r.nCommon) = flen from by omega] using this
      · simp only [consumedNX, if_neg h0]
        have hble : r.nCommon ≤
            (if decide (r.aCommon + r.nCommon = lenA ∧ r.bCommon + r.nCommon = lenB) = true
             then c else c + c) := by
          split <;> omega
        rw [if_pos hble, ih _ _ h2 hbig2 he2, ← List.append_assoc, range'_glue _ _ _ h1]
        have := range'_concat fEnd (f r - fEnd + r.nCommon) (flen - (f r + r.nCommon))
        rw [show fEnd + (f r - fEnd + r.nCommon) = f r + r.nCommon from by omega] at this
        rw [show f r - fEnd + r.nCommon + (flen - (f r + r.nCommon)) = flen - fEnd
          from by omega] at this
        exact this

theorem diffExpandLoop_length (aLinesUn bLinesUn aLinesIn bLinesIn : List Line)
    (aSame bSame : Bool) (o : DiffOptionsNormalized) (ext : Externals)
    (aLength bLength : Nat) :
    ∀ (runs : List CommonRun) (aStart bStart ca cb : Nat),
      validSide aLength (fun r => r.aCommon) aStart runs = true →
      validSide bLength (fun r => r.bCommon) bStart runs = true →
      (diffExpandLoop aLinesUn bLinesUn aLinesIn bLinesIn aSame bSame o ext
        aLength bLength aStart bStart ca cb runs).1.length + totalCommon runs
        = (aLength - aStart) + (bLength - bStart) := by
  intro runs
  induction runs with
  | nil =>
      intro aStart bStart ca cb hva hvb
      simp [diffExpandLoop, totalCommon, formatDelete_length, formatInsert_length]
  | cons r rs ih =>
      intro aStart bStart ca cb hva hvb
      simp only [validSide, Bool.and_eq_true, decide_eq_true_eq] at hva hvb
      obtain ⟨ha1, ha2⟩ := hva
      obtain ⟨hb1, hb2⟩ := hvb
      have ha3 : r.aCommon + r.nCommon ≤ aLength := validSide_le _ _ rs _ ha2
      have hb3 : r.bCommon + r.nCommon ≤ bLength := validSide_le _ _ rs _ hb2
      have := ih (r.aCommon + r.nCommon) (r.bCommon + r.nCommon)
        (ca + (r.aCommon - aStart)) (cb + (r.bCommon - bStart)) ha2 hb2
      simp only [diffExpandLoop, List.length_append, formatDelete_length,
        formatInsert_length, formatCommon_length, totalCommon, List.map_cons,
        List.sum_cons] at this ⊢
      omega

/-- C4: over one full pass in expanded mode every index of side A is
consumed exactly once (as a delete or common line) and every index of
side B exactly once (as an insert or common line) — the consumed-index
trace equals `[0, len)` in order on each side — and the same holds in
windowed mode whenever `contextLines` bounds every common run's length
(so that no run is clipped or truncated).  The emitted line count of
the expanded pass ties the trace to the assembler: delete + insert +
common line counts total `lenA + lenB - totalCommon`. -/
theorem diff_consumes_each_index_once
    (aLinesUn bLinesUn aLinesIn bLinesIn : List Line) (aSame bSame : Bool)
    (o : DiffOptionsNormalized) (ext : Externals) (runs : List CommonRun)
    (hv : validRuns aLinesUn.length bLinesUn.length 0 0 runs = true) :
    consumedExpand aLinesUn.length (fun r => r.aCommon) 0 runs
      = List.range aLinesUn.length ∧
    consumedExpand bLinesUn.length (fun r => r.bCommon) 0 runs
      = List.range bLinesUn.length ∧
    (diffExpandLoop aLinesUn bLinesUn aLinesIn bLinesIn aSame bSame o ext
      aLinesUn.length bLinesUn.length 0 0 0 0 runs).1.length + totalCommon runs
      = aLinesUn.length + bLinesUn.length ∧
    ((∀ r ∈ runs, r.nCommon ≤ o.contextLines) →
      consumedNX o.contextLines aLinesUn.length bLinesUn.length (fun r => r.aCommon)
        aLinesUn.length false 0 runs = List.range aLinesUn.length ∧
      consumedNX o.contextLines aLinesUn.length bLinesUn.length (fun r => r.bCommon)
        bLinesUn.length false 0 runs = List.range bLinesUn.length) := by
  have hv2 := hv
  simp only [validRuns, Bool.and_eq_true] at hv2
  obtain ⟨hva, hvb⟩ := hv2
  refine ⟨?_, ?_, ?_, fun hbig => ⟨?_, ?_⟩⟩
  · rw [consumedExpand_eq_range' _ _ runs 0 hva, List.range_eq_range', Nat.sub_zero]
  · rw [consumedExpand_eq_range' _ _ runs 0 hvb, List.range_eq_range', Nat.sub_zero]
  · have := diffExpandLoop_length aLinesUn bLinesUn aLinesIn bLinesIn aSame bSame o ext
      aLinesUn.length bLinesUn.length runs 0 0 0 0 hva hvb
    omega
  · rw [consumedNX_eq_range' _ _ _ _ _ (fun r h => h.1) (fun r h => h.1) runs false 0 hva
      hbig (by simp), List.range_eq_range', Nat.sub_zero]
  · rw [consumedNX_eq_range' _ _ _ _ _ (fun r h => h.2) (fun r h => h.2) runs false 0 hvb
      hbig (by simp), List.range_eq_range', Nat.sub_zero]

theorem diff_consumes_each_index_once_witness :
    consumedExpand 2 (fun r => r.aCommon) 0 [⟨1, 0, 0⟩] = List.range 2 :=
  (diff_consumes_each_index_once [['x'], ['y']] [['x'], ['z']] [['x'], ['y']] [['x'], ['z']]
    true true sampleOpts sampleExt [⟨1, 0, 0⟩] (by decide)).1

/-- Core simulation for C5: when `contextLines` dominates both lengths,
the windowed fold keeps the first window open over the whole pass (the
placeholder index and window starts stay 0) and accumulates exactly the
expanded assembler's lines and counts, modulo the final flush. -/
theorem nxLoop_vs_expand (aLinesUn bLinesUn aLinesIn bLinesIn : List Line)
    (aSame bSame : Bool) (o : DiffOptionsNormalized) (ext : Externals)
    (hA : aLinesUn.length ≤ o.contextLines) :
    ∀ (runs : List CommonRun) (arr : List Line) (e : Bool) (aEnd bEnd ca cb : Nat),
      validRuns aLinesUn.length bLinesUn.length aEnd bEnd runs = true →
      (e = true → aEnd = aLinesUn.length ∧ bEnd = bLinesUn.length) →
      (let sf := diffNoExpandLoop aLinesUn bLinesUn aLinesIn bLinesIn aSame bSame o ext
          aLinesUn.length bLinesUn.length ⟨0, arr, e, ca, cb, 0, aEnd, 0, bEnd⟩ runs
       let er := diffExpandLoop aLinesUn bLinesUn aLinesIn bLinesIn aSame bSame o ext
          aLinesUn.length bLinesUn.length aEnd bEnd ca cb runs
       sf.iPatchMark = 0 ∧ sf.aStart = 0 ∧ sf.bStart = 0 ∧
       (sf.isAtEnd = true → sf.aEnd = aLinesUn.length ∧ sf.bEnd = bLinesUn.length) ∧
       sf.array ++ formatDelete sf.aEnd aLinesUn.length aLinesUn aLinesIn aSame o ext
          ++ formatInsert sf.bEnd bLinesUn.length bLinesUn bLinesIn bSame o ext
          = arr ++ er.1 ∧
       sf.ca + (aLinesUn.length - sf.aEnd) = er.2.1 ∧
       sf.cb + (bLinesUn.length - sf.bEnd) = er.2.2) := by
  intro runs
  induction runs with
  | nil =>
      intro arr e aEnd bEnd ca cb hv he
      refine ⟨rfl, rfl, rfl, he, ?_, rfl, rfl⟩
      simp [diffNoExpandLoop, diffExpandLoop, List.append_assoc]
  | cons r rs ih =>
      intro arr e aEnd bEnd ca cb hv he
      simp only [validRuns, validSide, Bool.and_eq_true, decide_eq_true_eq] at hv
      obtain ⟨⟨ha1, ha2⟩, hb1, hb2⟩ := hv
      have ha3 : r.aCommon + r.nCommon ≤ aLinesUn.length := validSide_le _ _ rs _ ha2
      have hb3 : r.bCommon + r.nCommon ≤ bLinesUn.length := validSide_le _ _ rs _ hb2
      have hv' : validRuns aLinesUn.length bLinesUn.length
          (r.aCommon + r.nCommon) (r.bCommon + r.nCommon) rs = true := by
        simp only [validRuns, Bool.and_eq_true]
        exact ⟨ha2, hb2⟩
      have he' : (decide (r.aCommon + r.nCommon = aLinesUn.length ∧
          r.bCommon + r.nCommon = bLinesUn.length) = true) →
          r.aCommon + r.nCommon = aLinesUn.length ∧
          r.bCommon + r.nCommon = bLinesUn.length := by
        simp
      by_cases h0 : r.aCommon = 0 ∧ r.bCommon = 0
      · -- run touches the very start
        have haE : aEnd = 0 := by omega
        have hbE : bEnd = 0 := by omega
        have hmin : min o.contextLines r.nCommon = r.nCommon := by omega
        have hstep := noExpandStep_eq_start aLinesUn bLinesUn aLinesIn bLinesIn aSame bSame
          o ext aLinesUn.length bLinesUn.length ⟨0, arr, e, ca, cb, 0, aEnd, 0, bEnd⟩ r h0
        rw [hmin, h0.1, h0.2] at hstep
        simp only [Nat.zero_add, Nat.sub_self] at hstep
        have ihs := ih
          (arr ++ formatCommon r.nCommon 0 0 aLinesIn bLinesUn bLinesIn bSame o ext)
          (decide (r.aCommon + r.nCommon = aLinesUn.length ∧
            r.bCommon + r.nCommon = bLinesUn.length))
          (r.aCommon + r.nCommon) (r.bCommon + r.nCommon) ca cb hv' he'
        simp only [diffNoExpandLoop, hstep]
        simp only [h0.1, h0.2, Nat.zero_add] at ihs ⊢
        obtain ⟨i1, i2, i3, i4, i5, i6, i7⟩ := ihs
        refine ⟨i1, i2, i3, i4, ?_, ?_, ?_⟩
        · rw [i5]
          simp [diffExpandLoop, haE, hbE, h0.1, h0.2, formatDelete_empty, formatInsert_empty,
            List.append_assoc]
        · simpa [diffExpandLoop, haE, hbE, h0.1, h0.2] using i6
        · simpa [diffExpandLoop, haE, hbE, h0.1, h0.2] using i7
      · -- internal or final run, never longer than the context
        have hle : r.nCommon ≤
            (if r.aCommon + r.nCommon = aLinesUn.length ∧
                r.bCommon + r.nCommon = bLinesUn.length
             then o.contextLines else o.contextLines + o.contextLines) := by
          split <;> omega
        have hstep := noExpandStep_eq_whole aLinesUn bLinesUn aLinesIn bLinesIn aSame bSame
          o ext aLinesUn.length bLinesUn.length ⟨0, arr, e, ca, cb, 0, aEnd, 0, bEnd⟩ r
          h0 hle
        have ihs := ih
          (arr ++ formatDelete aEnd r.aCommon aLinesUn aLinesIn aSame o ext
            ++ formatInsert bEnd r.bCommon bLinesUn bLinesIn bSame o ext
            ++ formatCommon r.nCommon r.aCommon r.bCommon aLinesIn bLinesUn bLinesIn
                bSame o ext)
          (decide (r.aCommon + r.nCommon = aLinesUn.length ∧
            r.bCommon + r.nCommon = bLinesUn.length))
          (r.aCommon + r.nCommon) (r.bCommon + r.nCommon)
          (ca + (r.aCommon - aEnd)) (cb + (r.bCommon - bEnd)) hv' he'
        simp only [diffNoExpandLoop, hstep]
        obtain ⟨i1, i2, i3, i4, i5, i6, i7⟩ := ihs
        refine ⟨i1, i2, i3, i4, ?_, ?_, ?_⟩
        · rw [i5]
          simp only [diffExpandLoop]
          simp [List.append_assoc]
        · simpa [diffExpandLoop] using i6
        · simpa [diffExpandLoop] using i7

/-- C5: with `contextLines = max(lenA, lenB)` the windowed-mode output
string is identical to the expanded-mode output string on the same
inputs — annotation header included, and with the patch-mark
placeholder spliced out so no patch-mark line is present. -/
theorem noExpand_eq_expand_at_max_context
    (aLinesUn bLinesUn aLinesIn bLinesIn : List Line) (aSame bSame : Bool)
    (o : DiffOptionsNormalized) (ext : Externals) (runs : List CommonRun)
    (hv : validRuns aLinesUn.length bLinesUn.length 0 0 runs = true)
    (hc : o.contextLines = max aLinesUn.length bLinesUn.length) :
    diffNoExpand aLinesUn bLinesUn aLinesIn bLinesIn aSame bSame o ext runs =
      diffExpand aLinesUn bLinesUn aLinesIn bLinesIn aSame bSame o ext runs := by
  have hA : aLinesUn.length ≤ o.contextLines := by
    rw [hc]
    exact le_max_left _ _
  have key := nxLoop_vs_expand aLinesUn bLinesUn aLinesIn bLinesIn aSame bSame o ext hA
    runs [[]] false 0 0 0 0 hv (by simp)
  obtain ⟨hip, has, hbs, hae, harr, hca, hcb⟩ := key
  have hini : initialNXState = (⟨0, [[]], false, 0, 0, 0, 0, 0, 0⟩ : NXState) := rfl
  simp only [diffNoExpand, diffExpand, hini]
  rcases hend : (diffNoExpandLoop aLinesUn bLinesUn aLinesIn bLinesIn aSame bSame o ext
      aLinesUn.length bLinesUn.length ⟨0, [[]], false, 0, 0, 0, 0, 0, 0⟩ runs).isAtEnd with _ | _
  · -- last run did not reach the end: the final flush completes the pass
    simp only [hend, Bool.false_eq_true, if_false]
    rw [if_pos ⟨has, trivial, hbs, trivial⟩]
    rw [hca, hcb, harr]
    simp
  · -- last run reached both ends: nothing remains to flush
    obtain ⟨haE, hbE⟩ := hae hend
    have harr2 : (diffNoExpandLoop aLinesUn bLinesUn aLinesIn bLinesIn aSame bSame o ext
        aLinesUn.length bLinesUn.length ⟨0, [[]], false, 0, 0, 0, 0, 0, 0⟩ runs).array
        = [[]] ++ (diffExpandLoop aLinesUn bLinesUn aLinesIn bLinesIn aSame bSame o ext
            aLinesUn.length bLinesUn.length 0 0 0 0 runs).1 := by
      rw [haE, hbE, formatDelete_empty, formatInsert_empty, List.append_nil,
        List.append_nil] at harr
      exact harr
    have hca2 : (diffNoExpandLoop aLinesUn bLinesUn aLinesIn bLinesIn aSame bSame o ext
        aLinesUn.length bLinesUn.length ⟨0, [[]], false, 0, 0, 0, 0, 0, 0⟩ runs).ca
        = (diffExpandLoop aLinesUn bLinesUn aLinesIn bLinesIn aSame bSame o ext
            aLinesUn.length bLinesUn.length 0 0 0 0 runs).2.1 := by
      rw [haE] at hca
      simpa using hca
    have hcb2 : (diffNoExpandLoop aLinesUn bLinesUn aLinesIn bLinesIn aSame bSame o ext
        aLinesUn.length bLinesUn.length ⟨0, [[]], false, 0, 0, 0, 0, 0, 0⟩ runs).cb
        = (diffExpandLoop aLinesUn bLinesUn aLinesIn bLinesIn aSame bSame o ext
            aLinesUn.length bLinesUn.length 0 0 0 0 runs).2.2 := by
      rw [hbE] at hcb
      simpa using hcb
    simp only [hend, if_true]
    rw [if_pos ⟨has, haE, hbs, hbE⟩]
    rw [hca2, hcb2, harr2]
    simp

theorem noExpand_eq_expand_at_max_context_witness :
    diffNoExpand [['x'], ['y']] [['x'], ['z']] [['x'], ['y']] [['x'], ['z']] true true
        { sampleOpts with contextLines := 2 } sampleExt [⟨1, 0, 0⟩] =
      diffExpand [['x'], ['y']] [['x'], ['z']] [['x'], ['y']] [['x'], ['z']] true true
        { sampleOpts with contextLines := 2 } sampleExt [⟨1, 0, 0⟩] :=
  noExpand_eq_expand_at_max_context [['x'], ['y']] [['x'], ['z']] [['x'], ['y']] [['x'], ['z']]
    true true { sampleOpts with contextLines := 2 } sampleExt [⟨1, 0, 0⟩]
    (by decide) (by decide)

/-- C9: for every input text `x` and every options value, calling the
entry point with `expected = actual = x` returns the fixed
no-differences sentinel.  The result is this sentinel for *every*
oracle and does not depend on either assembler: the fast path
(diffLines.ts:347-349) returns before any of them is reached. -/
theorem diffLines_identity_sentinel (x : Line) (o : DiffOptionsNormalized)
    (original : Option Original) (ext : Externals) (noDiffMessage : Line)
    (oracle : Oracle) :
    diffLines x x o original ext noDiffMessage oracle = noDiffMessage := by
  simp [diffLines]

/-- C10: when the oracle reports no common run at all, the windowed
output is the annotation header followed by exactly `lenA` delete lines
(all of side A, in order) and then exactly `lenB` insert lines (all of
side B, in order); no patch-mark line is present (the placeholder is
spliced out and `createPatchMark` is never consulted), and the change
counts are `a = lenA`, `b = lenB`. -/
theorem noExpand_no_common_runs (aLinesUn bLinesUn aLinesIn bLinesIn : List Line)
    (aSame bSame : Bool) (o : DiffOptionsNormalized) (ext : Externals) :
    diffNoExpand aLinesUn bLinesUn aLinesIn bLinesIn aSame bSame o ext [] =
      ext.printSummary o ⟨aLinesUn.length, bLinesUn.length⟩ ++
        List.intercalate ['\n']
          (formatDelete 0 aLinesUn.length aLinesUn aLinesIn aSame o ext ++
           formatInsert 0 bLinesUn.length bLinesUn bLinesIn bSame o ext) ∧
    (formatDelete 0 aLinesUn.length aLinesUn aLinesIn aSame o ext).length
      = aLinesUn.length ∧
    (formatInsert 0 bLinesUn.length bLinesUn bLinesIn bSame o ext).length
      = bLinesUn.length := by
  refine ⟨?_, by simp [formatDelete], by simp [formatInsert]⟩
  simp [diffNoExpand, diffNoExpandLoop, initialNXState]

/-- C8: when an `original` pair is supplied whose line counts mismatch
the comparison texts on either side, the entry point does not fail: it
replaces the unnormalized sequences of both sides with the
indentation-preserving ones, which then serve as the basis for both the
equality comparison (the sequences handed to the oracle) and the
display. -/
theorem diffLines_fallback_on_length_mismatch (a b : Line) (o : DiffOptionsNormalized)
    (orig : Original) (ext : Externals) (noDiffMessage : Line) (oracle : Oracle)
    (hab : a ≠ b)
    (hmm : ((splitLines a).length != (splitLines orig.a).length ||
            (splitLines b).length != (splitLines orig.b).length) = true) :
    diffLines a b o (some orig) ext noDiffMessage oracle =
      (let aL := splitLines orig.a
       let bL := splitLines orig.b
       let runs := oracle aL.length bL.length (fun i j => aL.getD i [] == bL.getD j [])
       if o.expand then diffExpand aL bL aL bL true true o ext runs
       else diffNoExpand aL bL aL bL true true o ext runs) := by
  simp only [diffLines, if_neg hab, hmm, if_true]

theorem takeWhile_eq_take_length {α : Type _} (p : α → Bool) (l : List α) :
    l.takeWhile p = l.take (l.takeWhile p).length := by
  induction l with
  | nil => rfl
  | cons a l ih =>
      by_cases h : p a <;> simp [List.takeWhile_cons, h]
      exact ih

theorem length_takeWhile_le' {α : Type _} (p : α → Bool) (l : List α) :
    (l.takeWhile p).length ≤ l.length := by
  have := congrArg List.length (List.takeWhile_append_dropWhile p l)
  simp only [List.length_append] at this
  omega

theorem drop_takeWhile_length {α : Type _} (p : α → Bool) (l : List α) :
    l.drop (l.takeWhile p).length = l.dropWhile p := by
  induction l with
  | nil => rfl
  | cons a l ih =>
      by_cases h : p a <;> simp [List.takeWhile_cons, List.dropWhile_cons, h]
      exact ih

theorem dropWhile_headD_false {α : Type _} (p : α → Bool) (d : α) (l : List α)
    (h : l.dropWhile p ≠ []) : p ((l.dropWhile p).headD d) = false := by
  induction l with
  | nil => simp at h
  | cons a l ih =>
      by_cases hp : p a
      · have h2 : l.dropWhile p ≠ [] := by simpa [List.dropWhile_cons, hp] using h
        simpa [List.dropWhile_cons, hp] using ih h2
      · simp [List.dropWhile_cons, hp]

theorem takeWhile_take_of_lt {α : Type _} (p : α → Bool) (l : List α) :
    ∀ m : Nat, (l.takeWhile p).length < m → (l.take m).takeWhile p = l.takeWhile p := by
  induction l with
  | nil => intro m _; simp
  | cons a l ih =>
      intro m hm
      match m with
      | 0 => exact absurd hm (Nat.not_lt_zero _)
      | m + 1 =>
          by_cases hp : p a
          · have h2 : (l.takeWhile p).length < m := by
              simpa [List.takeWhile_cons, hp] using hm
            simp [List.take_succ_cons, List.takeWhile_cons, hp, ih m h2]
          · simp [List.take_succ_cons, List.takeWhile_cons, hp]

theorem takeWhile_append_of_lt {α : Type _} (p : α → Bool) (xs ys : List α)
    (h : (xs.takeWhile p).length < xs.length) :
    (xs ++ ys).takeWhile p = xs.takeWhile p := by
  induction xs with
  | nil => simp at h
  | cons a xs ih =>
      by_cases hp : p a
      · have h2 : (xs.takeWhile p).length < xs.length := by
          simpa [List.takeWhile_cons, hp] using h
        simp [List.takeWhile_cons, hp, ih h2]
      · simp [List.takeWhile_cons, hp]

/-- Every character of the maximal trailing whitespace run (the last
`t` characters) is whitespace. -/
theorem mem_drop_sub_trailing (l : Line) (c : Char)
    (hc : c ∈ l.drop (l.length - (l.reverse.takeWhile isWS).length)) :
    isWS c = true := by
  have htn : (l.reverse.takeWhile isWS).length ≤ l.length := by
    have := length_takeWhile_le' isWS l.reverse
    simpa using this
  have h1 : c ∈ (l.drop (l.length - (l.reverse.takeWhile isWS).length)).reverse :=
    List.mem_reverse.mpr hc
  rw [List.reverse_drop] at h1
  have h2 : l.length - (l.length - (l.reverse.takeWhile isWS).length)
      = (l.reverse.takeWhile isWS).length := by omega
  rw [h2] at h1
  rw [← takeWhile_eq_take_length] at h1
  exact List.mem_takeWhile_imp h1

/-- C6 counterexample: the claim predicts that for an odd leading
whitespace count only the last leading character is wrapped and the
pairs before it are left unwrapped in place (`hltsClaimed`), but on a
line with five leading spaces the program replaces the whole
five-character leading run by its *last* pair plus the wrapped fifth
space — the first pair is deleted (ECMAScript `$1` keeps only the last
iteration of `(\s\s)*`). -/
theorem highlight_leading_trailing_claim_counterexample :
    highlightLeadingTrailingSpaces [' ', ' ', ' ', ' ', ' ', 'x'] ⟨['<'], ['>']⟩
        = [' ', ' ', '<', ' ', '>', 'x'] ∧
    highlightLeadingTrailingSpaces [' ', ' ', ' ', ' ', ' ', 'x'] ⟨['<'], ['>']⟩
        ≠ hltsClaimed [' ', ' ', ' ', ' ', ' ', 'x'] ⟨['<'], ['>']⟩ := by
  decide

/-- C6 (amended): the leading-and-trailing whitespace highlighter
always wraps the maximal trailing whitespace run; for a line containing
a non-whitespace character, when the leading whitespace count is odd
the leading run is replaced by its last whitespace pair (empty when the
count is 1) followed by the wrapped last leading whitespace character —
earlier pairs are dropped, not preserved — and when the count is even
no leading character is changed (this is `hltsAmended`); a line
consisting entirely of whitespace is wrapped once, by the trailing step
alone (the decoration's opening code, which is non-empty and does not
start with whitespace, blocks the leading replacement). -/
theorem highlight_leading_trailing_amended (line : Line) (bg : Decor) :
    ((line.takeWhile isWS).length < line.length →
      highlightLeadingTrailingSpaces line bg = hltsAmended line bg) ∧
    (line ≠ [] → (∀ c ∈ line, isWS c = true) →
      bg.pre ≠ [] → bg.pre.takeWhile isWS = [] →
      highlightLeadingTrailingSpaces line bg = bg.apply line) := by
  constructor
  · intro hk
    by_cases ht0 : (line.reverse.takeWhile isWS).length = 0
    · -- no trailing whitespace: the trailing step is the identity
      have hS : highlightTrailingSpaces line bg = line := by
        simp only [highlightTrailingSpaces]
        rw [if_pos ht0]
      have hfull : (line.drop (line.takeWhile isWS).length).take
          (line.length - (line.takeWhile isWS).length)
          = line.drop (line.takeWhile isWS).length := by
        apply List.take_of_length_le
        simp
      unfold highlightLeadingTrailingSpaces
      rw [hS]
      simp only [replaceLeadingOdd, hltsAmended, ht0, Nat.sub_zero]
      by_cases hodd : (line.takeWhile isWS).length % 2 = 1
      · rw [if_pos ⟨hodd, hk⟩, if_pos hodd]
        simp [hfull, List.append_assoc]
      · rw [if_neg (fun h => hodd h.1), if_neg hodd]
        simp [hfull, List.take_append_drop]
    · -- non-empty trailing whitespace run
      have htn : (line.reverse.takeWhile isWS).length ≤ line.length := by
        have := length_takeWhile_le' isWS line.reverse
        simpa using this
      have hkt : (line.takeWhile isWS).length
          < line.length - (line.reverse.takeWhile isWS).length := by
        rcases hdk : line.drop (line.takeWhile isWS).length with _ | ⟨c0, rest⟩
        · have := congrArg List.length hdk
          simp at this
          omega
        · have hdw : line.drop (line.takeWhile isWS).length = line.dropWhile isWS :=
            drop_takeWhile_length isWS line
          have hne : line.dropWhile isWS ≠ [] := by
            rw [← hdw, hdk]
            simp
          have hc0 : isWS c0 = false := by
            have h1 := dropWhile_headD_false isWS 'x' line hne
            rw [← hdw, hdk] at h1
            simpa using h1
          by_contra hge
          push_neg at hge
          have hmem0 : c0 ∈ line.drop (line.takeWhile isWS).length := by
            rw [hdk]
            exact List.mem_cons_self _ _
          have hsplit : line.drop (line.takeWhile isWS).length
              = (line.drop (line.length - (line.reverse.takeWhile isWS).length)).drop
                  ((line.takeWhile isWS).length
                    - (line.length - (line.reverse.takeWhile isWS).length)) := by
            rw [List.drop_drop]
            congr 1
            omega
          rw [hsplit] at hmem0
          have hmem1 := List.mem_of_mem_drop hmem0
          have := mem_drop_sub_trailing line c0 hmem1
          rw [hc0] at this
          exact Bool.false_ne_true this
      have hS : highlightTrailingSpaces line bg =
          line.take (line.length - (line.reverse.takeWhile isWS).length) ++
            bg.apply (line.drop (line.length - (line.reverse.takeWhile isWS).length)) := by
        simp only [highlightTrailingSpaces]
        rw [if_neg ht0]
      have hPlen : (line.take (line.length - (line.reverse.takeWhile isWS).length)).length
          = line.length - (line.reverse.takeWhile isWS).length := by
        simp [List.length_take]
      have hPt : (line.take (line.length - (line.reverse.takeWhile isWS).length)).takeWhile isWS
          = line.takeWhile isWS :=
        takeWhile_take_of_lt isWS line _ hkt
      have hSt : ((line.take (line.length - (line.reverse.takeWhile isWS).length) ++
            bg.apply (line.drop (line.length - (line.reverse.takeWhile isWS).length))).takeWhile
              isWS)
          = line.takeWhile isWS := by
        rw [takeWhile_append_of_lt _ _ _ (by rw [hPt, hPlen]; exact hkt)]
        exact hPt
      have hSlen : (line.takeWhile isWS).length
          < (line.take (line.length - (line.reverse.takeWhile isWS).length) ++
              bg.apply (line.drop (line.length - (line.reverse.takeWhile isWS).length))).length := by
        rw [List.length_append, hPlen]
        omega
      have ecomp : ∀ j m : Nat,
          j + m ≤ line.length - (line.reverse.takeWhile isWS).length →
          ((line.take (line.length - (line.reverse.takeWhile isWS).length) ++
            bg.apply (line.drop (line.length - (line.reverse.takeWhile isWS).length))).drop
              j).take m
            = (line.drop j).take m := by
        intro j m hjm
        rw [List.drop_append_eq_append_drop]
        have h1 : j - (line.take (line.length - (line.reverse.takeWhile isWS).length)).length
            = 0 := by
          rw [hPlen]; omega
        rw [h1, List.drop_zero, List.take_append_eq_append_take]
        have h2 : m - ((line.take (line.length -
            (line.reverse.takeWhile isWS).length)).drop j).length = 0 := by
          simp only [List.length_drop, hPlen]
          omega
        rw [h2]
        simp only [List.take_zero, List.append_nil]
        rw [List.drop_take, List.take_take, min_eq_left (by omega)]
      unfold highlightLeadingTrailingSpaces
      rw [hS]
      simp only [replaceLeadingOdd, hSt, hltsAmended]
      rw [if_neg ht0]
      by_cases hodd : (line.takeWhile isWS).length % 2 = 1
      · rw [if_pos ⟨hodd, hSlen⟩, if_pos hodd]
        have e3 : (line.take (line.length - (line.reverse.takeWhile isWS).length) ++
              bg.apply (line.drop (line.length - (line.reverse.takeWhile isWS).length))).drop
                (line.takeWhile isWS).length
            = (line.drop (line.takeWhile isWS).length).take
                (line.length - (line.reverse.takeWhile isWS).length
                  - (line.takeWhile isWS).length) ++
              bg.apply (line.drop (line.length - (line.reverse.takeWhile isWS).length)) := by
          rw [List.drop_append_eq_append_drop]
          have h1 : (line.takeWhile isWS).length -
              (line.take (line.length - (line.reverse.takeWhile isWS).length)).length = 0 := by
            rw [hPlen]; omega
          rw [h1, List.drop_zero, List.drop_take]
        rw [ecomp ((line.takeWhile isWS).length - 1) 1 (by omega), e3]
        by_cases hk1 : (line.takeWhile isWS).length = 1
        · simp [hk1, List.append_assoc]
        · rw [if_neg hk1, if_neg hk1,
            ecomp ((line.takeWhile isWS).length - 3) 2 (by omega)]
          simp [List.append_assoc]
      · rw [if_neg (fun h => hodd h.1), if_neg hodd]
        have e4 : line.take (line.length - (line.reverse.takeWhile isWS).length)
            = line.take (line.takeWhile isWS).length ++
              (line.drop (line.takeWhile isWS).length).take
                (line.length - (line.reverse.takeWhile isWS).length
                  - (line.takeWhile isWS).length) := by
          have h5 : line.length - (line.reverse.takeWhile isWS).length
              = (line.takeWhile isWS).length +
                (line.length - (line.reverse.takeWhile isWS).length
                  - (line.takeWhile isWS).length) := by omega
          calc line.take (line.length - (line.reverse.takeWhile isWS).length)
              = line.take ((line.takeWhile isWS).length +
                  (line.length - (line.reverse.takeWhile isWS).length
                    - (line.takeWhile isWS).length)) := by rw [← h5]
            _ = _ := List.take_add _ _ _
        rw [e4]
  · intro hne hall hpreNe hpreTW
    have hn0 : 0 < line.length := List.length_pos.mpr hne
    have htl : line.reverse.takeWhile isWS = line.reverse :=
      List.takeWhile_eq_self_iff.mpr (by
        intro c hcm
        exact hall c (List.mem_reverse.mp hcm))
    have ht : (line.reverse.takeWhile isWS).length = line.length := by
      rw [htl]; simp
    have hS : highlightTrailingSpaces line bg = bg.apply line := by
      simp only [highlightTrailingSpaces]
      rw [if_neg (by omega)]
      rw [ht]
      simp
    unfold highlightLeadingTrailingSpaces
    rw [hS]
    have hTW : (bg.apply line).takeWhile isWS = [] := by
      unfold Decor.apply
      rw [List.append_assoc]
      rw [takeWhile_append_of_lt _ _ _ (by
        rw [hpreTW]
        simpa using List.length_pos.mpr hpreNe)]
      exact hpreTW
    simp [replaceLeadingOdd, hTW]

theorem highlight_leading_trailing_amended_witness :
    (highlightLeadingTrailingSpaces [' ', ' ', ' ', ' ', ' ', 'x', ' '] ⟨['<'], ['>']⟩
        = hltsAmended [' ', ' ', ' ', ' ', ' ', 'x', ' '] ⟨['<'], ['>']⟩) ∧
    (highlightLeadingTrailingSpaces [' ', ' '] ⟨['<'], ['>']⟩
        = Decor.apply ⟨['<'], ['>']⟩ [' ', ' ']) :=
  ⟨(highlight_leading_trailing_amended [' ', ' ', ' ', ' ', ' ', 'x', ' '] ⟨['<'], ['>']⟩).1
      (by decide),
   (highlight_leading_trailing_amended [' ', ' '] ⟨['<'], ['>']⟩).2
      (by decide) (by decide) (by decide) (by decide)⟩

theorem diffLines_fallback_on_length_mismatch_witness :
    diffLines ['x'] ['y'] sampleOpts (some ⟨['x', '\n', 'q'], ['y']⟩) sampleExt
        ['N'] (fun _ _ _ => []) =
      (let aL := splitLines ['x', '\n', 'q']
       let bL := splitLines ['y']
       let runs := (fun (_ : Nat) (_ : Nat) (_ : Nat → Nat → Bool) => ([] : List CommonRun))
         aL.length bL.length (fun i j => aL.getD i [] == bL.getD j [])
       if sampleOpts.expand then diffExpand aL bL aL bL true true sampleOpts sampleExt runs
       else diffNoExpand aL bL aL bL true true sampleOpts sampleExt runs) :=
  diffLines_fallback_on_length_mismatch ['x'] ['y'] sampleOpts ⟨['x', '\n', 'q'], ['y']⟩
    sampleExt ['N'] (fun _ _ _ => []) (by decide) (by decide)

end JestDiff
